import Mathlib

/-!
Verification development for the DesignSPHysics FreeCAD macro
(`DSPH.py`, `dsphfc/xmlimporter.py`).

The definitions below are a shallow embedding of the data-mutating parts of
the source: GUI-only effects (widget layout, labels, stylesheets) are elided,
while every mutation of the `data` dictionary, every list/dict operation and
every possible Python exception on those paths is modelled explicitly.
Python machine behaviour is modelled as follows: `str` becomes `String`,
`float` arithmetic becomes `Rat` (all values exercised here are small
decimals, exactly representable in binary floating point, so `Rat` and IEEE
double agree on them; `pyMul`/`pyDiv`/`pyAdd` below are proved equal to the
`Rat` field operations), `list.remove` becomes `List.erase` (first
occurrence, `ValueError` when absent), `dict.pop(k, None)` becomes
`List.erase` on the key list (never raises), and an uncaught Python
exception aborts the handler with all mutations made so far kept.
-/

namespace DSPH

/-! ### Rational arithmetic in kernel-evaluable form -/

/-- Multiplication on `Rat`, written with `mkRat` so that concrete runs of
the model evaluate inside the kernel; proved equal to `(· * ·)` below. -/
def pyMul (a b : Rat) : Rat := mkRat (a.num * b.num) (a.den * b.den)

/-- Division on `Rat` in `mkRat`/`divInt` form; proved equal to `(· / ·)`
below. -/
def pyDiv (a b : Rat) : Rat := Rat.divInt (a.num * (b.den : Int)) ((a.den : Int) * b.num)

/-- Addition on `Rat` in `mkRat` form; proved equal to `(· + ·)` below. -/
def pyAdd (a b : Rat) : Rat := mkRat (a.num * (b.den : Int) + b.num * (a.den : Int)) (a.den * b.den)

theorem pyMul_eq (a b : Rat) : pyMul a b = a * b := by
  rw [pyMul, Rat.mul_def, Rat.normalize_eq_mkRat]

theorem pyDiv_eq (a b : Rat) : pyDiv a b = a / b := by
  rw [pyDiv, Rat.div_def']

theorem pyAdd_eq (a b : Rat) : pyAdd a b = a + b := by
  rw [pyAdd, Rat.add_def, Rat.normalize_eq_mkRat]

/-! ### Python string primitives -/

/-- Whether `a` is an initial run of `b` (helper for substring search). -/
def leadsChars : List Char → List Char → Bool
  | [], _ => true
  | _ :: _, [] => false
  | a :: as, b :: bs => a == b && leadsChars as bs

/-- Whether `needle` occurs contiguously inside `hay` (helper for `pyIn`). -/
def subChars (needle : List Char) : List Char → Bool
  | [] => needle.isEmpty
  | b :: bs => leadsChars needle (b :: bs) || subChars needle bs

/-- Python's substring test `needle in hay` on `str`. -/
def pyIn (needle hay : String) : Bool :=
  subChars needle.toList hay.toList

/-- Python's `str.lower()` (the strings in this program are ASCII). -/
def pyLower (s : String) : String :=
  String.mk (s.toList.map Char.toLower)

/-- One splitting pass of Python's `s.split(sep)` with explicit fuel (the
fuel is consumed once per character, so `fuel = length of the input` always
suffices); the accumulator holds the current segment reversed. -/
def pySplitAux (sep : List Char) : Nat → List Char → List Char → List (List Char)
  | _, [], acc => [acc.reverse]
  | 0, cs, acc => [acc.reverse ++ cs]
  | fuel + 1, c :: cs, acc =>
    if leadsChars sep (c :: cs) then
      acc.reverse :: pySplitAux sep fuel (List.drop sep.length (c :: cs)) []
    else
      pySplitAux sep fuel cs (c :: acc)

/-- Python's `s.split(sep)` for a non-empty separator `sep`. -/
def pySplit (sep s : String) : List String :=
  (pySplitAux sep.toList s.toList.length s.toList []).map (fun cs => String.mk cs)

/-- Decimal digit test for Python number parsing. -/
def isDigitCh (c : Char) : Bool := '0' ≤ c && c ≤ '9'

/-- Whitespace test matching what Python's `float()` strips. -/
def isWsCh (c : Char) : Bool :=
  c == ' ' || c == '\n' || c == '\t' || c == '\r' || c == '\x0b' || c == '\x0c'

/-- Strips leading and trailing whitespace from a character list. -/
def trimWs (cs : List Char) : List Char :=
  ((cs.dropWhile isWsCh).reverse.dropWhile isWsCh).reverse

/-- Numeric value of a digit string. -/
def digitsVal (cs : List Char) : Nat :=
  cs.foldl (fun a c => a * 10 + (c.toNat - 48)) 0

/-- Parses an unsigned decimal (`digits`, `digits.digits`, `.digits`,
`digits.`), the forms `float()` meets in this program; `none` is Python's
`ValueError`. -/
def parseUnsigned (cs : List Char) : Option Rat :=
  let intPart := cs.takeWhile isDigitCh
  let rest := cs.dropWhile isDigitCh
  match rest with
  | [] => if intPart.isEmpty then none else some (mkRat (digitsVal intPart) 1)
  | '.' :: frac =>
    if frac.all isDigitCh && !(intPart.isEmpty && frac.isEmpty) then
      some (mkRat (digitsVal intPart * 10 ^ frac.length + digitsVal frac) (10 ^ frac.length))
    else none
  | _ => none

/-- Python's `float(s)` on the decimal strings this program parses
(whitespace-tolerant, optional sign); `none` models `ValueError`. -/
def parseFloat (s : String) : Option Rat :=
  match trimWs s.toList with
  | '-' :: rest => (parseUnsigned rest).map (fun x => -x)
  | '+' :: rest => parseUnsigned rest
  | cs => parseUnsigned cs

/-- Python's `int(s)` on plain digit strings (optional sign, whitespace
tolerated); `none` models `ValueError`. -/
def parseIntPy (s : String) : Option Int :=
  match trimWs s.toList with
  | '-' :: rest =>
    if rest.all isDigitCh && !rest.isEmpty then some (-(digitsVal rest : Int)) else none
  | '+' :: rest =>
    if rest.all isDigitCh && !rest.isEmpty then some (digitsVal rest : Int) else none
  | cs => if cs.all isDigitCh && !cs.isEmpty then some (digitsVal cs : Int) else none

/-! ### Run monitor: `on_fs_change` (DSPH.py lines 533-566) -/

/-- Python exception kinds that can escape the handlers modelled here. -/
inductive PyErr
  | nameErr
  | indexErr
  | valueErr
  | zeroDivErr
deriving DecidableEq

/-- Monitor state mutated by `on_fs_change`: `data["timemax"]` (-1 until a
`TimeMax=` line is seen), the progress percentage most recently pushed to the
progress bar / window title, and `data["total_particles_out"]`. -/
structure MonState where
  timemax : Rat
  progress : Rat
  partsOut : Int
deriving DecidableEq

/-- The `TimeMax=` scan of `on_fs_change` (lines 541-545): for each line, if
`data["timemax"] == -1` and the line contains `TimeMax=`, assign
`float(l.split("=")[1])`; a malformed value raises `ValueError` and aborts
the handler with the assignments made so far kept. -/
def timemaxScan (tm : Rat) : List String → Rat × Option PyErr
  | [] => (tm, none)
  | l :: ls =>
    if tm = -1 then
      if pyIn "TimeMax=" l then
        match (pySplit "=" l).get? 1 with
        | some seg =>
          match parseFloat seg with
          | some v => timemaxScan v ls
          | none => (tm, some PyErr.valueErr)
        | none => (tm, some PyErr.indexErr)
      else timemaxScan tm ls
    else timemaxScan tm ls

/-- The body of `on_fs_change` (lines 533-566). `readResult` is the outcome
of the guarded `open`/`readlines` of `Run.out`: `none` means the read raised
(the `except` clause only logs it, after which the `for l in run_file_data`
line raises `NameError` on the unbound local). On a successful read the
`TimeMax=` scan runs, then the last line is parsed: a `Part_` line computes
`current_value = float(<last space-token before the first "."> + "." +
<first 2 chars after it>) * 100 / timemax` and pushes it to the progress bar
and window title; a `Particles out:` line updates the particles-out counter.
Returned: the state after all assignments that happened, plus the exception
that escaped, if any. -/
def on_fs_change (readResult : Option (List String)) (st : MonState) :
    MonState × Option PyErr :=
  match readResult with
  | none => (st, some PyErr.nameErr)
  | some ls =>
    let scan := timemaxScan st.timemax ls
    let st1 : MonState := { st with timemax := scan.1 }
    match scan.2 with
    | some e => (st1, some e)
    | none =>
      match ls.getLast? with
      | none => (st1, some PyErr.indexErr)
      | some last =>
        if pyIn "Part_" last then
          match pySplit "." last with
          | [] => (st1, some PyErr.indexErr)
          | p0 :: rest =>
            if pyIn "Part_" p0 then
              match rest with
              | [] => (st1, some PyErr.indexErr)
              | p1 :: _ =>
                let numStr := (pySplit " " p0).getLastD "" ++ "." ++ String.mk (p1.toList.take 2)
                match parseFloat numStr with
                | none => (st1, some PyErr.valueErr)
                | some v =>
                  if st1.timemax = 0 then (st1, some PyErr.zeroDivErr)
                  else ({ st1 with progress := pyDiv (pyMul v (mkRat 100 1)) st1.timemax }, none)
            else (st1, none)
        else if pyIn "Particles out:" last then
          match (pySplit "(total: " last).get? 1 with
          | none => (st1, some PyErr.indexErr)
          | some seg =>
            match (pySplit ")" seg).get? 0 with
            | none => (st1, some PyErr.indexErr)
            | some numseg =>
              match parseIntPy numseg with
              | none => (st1, some PyErr.valueErr)
              | some n => ({ st1 with partsOut := n }, none)
        else (st1, none)

/-! ### Simulation finish handler: `on_dsph_sim_finished` (DSPH.py lines 499-519) -/

/-- Observable outcome of `on_dsph_sim_finished`: the watcher path removal,
the run-dialog window title, the progress-bar value, the
`data["simulation_done"]` flag, the widget-state keyword passed to
`widget_state_config`, and whether the modal error dialog was shown.
`detailErr` records the `IndexError` that `str(output).split("====...")[1]`
raises in the error branch when the output holds no separator (it fires
after every state change of interest). -/
structure FinOutcome where
  watchRemoved : Bool
  title : String
  progbar : Int
  cancelText : String
  simulation_done : Bool
  widgetState : Option String
  errorDialog : Bool
  detailErr : Bool
deriving DecidableEq

/-- The body of `on_dsph_sim_finished(exitCode)` (lines 499-519):
unconditionally remove the watched path, set the title to Complete, force the
progress bar to 100 and relabel the cancel button; on exit code 0 set
`data["simulation_done"]` and the `sim finished` widget state; otherwise, if
the captured output contains "exception" case-insensitively, switch the title
to Error, zero the progress bar, set `sim error` state and show the error
dialog. `simDone0` is the prior value of `data["simulation_done"]` (set to
`False` when the run started, line 475). -/
def on_dsph_sim_finished (exitCode : Int) (output : String) (simDone0 : Bool) : FinOutcome :=
  let base : FinOutcome :=
    { watchRemoved := true
      title := "DualSPHysics Simulation: Complete"
      progbar := 100
      cancelText := "Close"
      simulation_done := simDone0
      widgetState := none
      errorDialog := false
      detailErr := false }
  if exitCode = 0 then
    { base with simulation_done := true, widgetState := some "sim finished" }
  else if pyIn "exception" (pyLower output) then
    { base with
        title := "DualSPHysics Simulation: Error"
        progbar := 0
        widgetState := some "sim error"
        errorDialog := true
        detailErr := !pyIn "================================" output }
  else base

/-! ### Cancellation and watch release (DSPH.py lines 485-521) -/

/-- Process/watcher state for one simulation run: whether the external
process is alive, whether a `finished` signal is pending delivery (emitted
exactly once when the process dies, by `kill` or naturally), whether the
output directory is still on the filesystem watcher, and how many times
`removePath` has been called. -/
structure RunWatch where
  procAlive : Bool
  finishPending : Bool
  watchPresent : Bool
  removeCalls : Nat
deriving DecidableEq

/-- Events during a run: the user pressing Cancel (handler `on_cancel`,
lines 485-491: `kill()` the process if the handle is set), the process dying
on its own, and Qt delivering the `finished` signal (handler
`on_dsph_sim_finished`, whose first actions include
`run_watcher.removePath(...)`, line 501). -/
inductive RunEvent
  | cancel
  | procExit
  | finishSignal
deriving DecidableEq

/-- One event step. `kill` on a process that is no longer running is a no-op
and produces no second `finished` signal; `removePath` on a path no longer
watched just returns `False` (counted here to show it is called only once). -/
def runStep (s : RunWatch) : RunEvent → RunWatch
  | RunEvent.cancel =>
    if s.procAlive then { s with procAlive := false, finishPending := true } else s
  | RunEvent.procExit =>
    if s.procAlive then { s with procAlive := false, finishPending := true } else s
  | RunEvent.finishSignal =>
    if s.finishPending then
      { s with finishPending := false, watchPresent := false, removeCalls := s.removeCalls + 1 }
    else s

/-- A whole run: fold the events over the state at simulation start
(process alive, watch registered by `run_watcher.addPath`, line 570). -/
def runTrace (evs : List RunEvent) : RunWatch :=
  evs.foldl runStep ⟨true, false, true, 0⟩

/-- Conserved bound for `runStep`: a release can only be paid for by a live
process or a pending finished signal, of which one exists at start. -/
def runPotential (s : RunWatch) : Nat :=
  s.removeCalls + (cond s.finishPending 1 0) + (cond s.procAlive 1 0)

/-! ### Export driver: `on_export` (DSPH.py lines 704-714) -/

/-- The argument list `on_export` passes to the PartVTK executable (lines
706-712): the two fixed directory arguments, then — when
`len(data["export_options"]) >= 2` — the whitespace-split of
`data["additional_parameters"]` (note: not of `data["export_options"]`). -/
def on_export_args (projectPath projectName exportOptions additionalParameters : String) :
    List String :=
  let outDir := projectPath ++ "/" ++ projectName ++ "_Out/"
  let staticParams := ["-dirin " ++ outDir, "-savevtk " ++ outDir ++ "PartAll"]
  let additionalParams :=
    if exportOptions.length < 2 then [] else pySplit " " additionalParameters
  staticParams ++ additionalParams

/-! ### XML importer: `filter_data` (dsphfc/xmlimporter.py lines 92-95) -/

/-- The `@auto` attribute strings of the `massbound` and `massfluid` elements
of the input XML's `constantsdef` section. -/
structure MassAutoAttrs where
  massboundAuto : String
  massfluidAuto : String

/-- The two flags `filter_data` computes from those attributes (lines 92-95):
`fil['massbound_auto'] = raw[...]['massbound']['@auto'].lower() == "true"`
and `fil['massfluid_auto'] = raw[...]['massbound']['@auto'].lower() == "true"`
— the second line also reads `massbound`, exactly as in the source. -/
def filter_data_mass (raw : MassAutoAttrs) : Bool × Bool :=
  (pyLower raw.massboundAuto == "true", pyLower raw.massboundAuto == "true")

/-! ### Object registry sync: `on_tree_item_selection_change` (DSPH.py
lines 1392-1539) and `on_cell_click` (lines 1544-1581)

The registry state is `data['simobjects']` (a dict; only its key list
matters for the pruning logic, kept here in iteration order) and
`data["export_order"]` (a list). The host document is a list of object
names plus a predicate telling which objects have a parent (`InList != []`).
The reconcile handler is modelled on its no-selection path (an empty
FreeCAD selection only hides widgets); selection-dependent branches touch
the GUI alone, except the early `return` for a selected `Case_Limits`,
which is outside the states quantified here. -/

/-- Registry state: the key list of `data['simobjects']` and the list
`data["export_order"]`. -/
structure RegState where
  simobjects : List String
  export_order : List String
deriving DecidableEq

/-- The deletion-detect loop (lines 1398-1402): iterate over a snapshot of
`data['simobjects'].keys()`; every key absent from the document is popped
from the dict and then removed from `export_order` — `list.remove` raises
`ValueError` when the key is not there, aborting the handler with the pop
already done. -/
def pruneDeleted (doc : List String) : List String → RegState → RegState × Bool
  | [], st => (st, true)
  | k :: ks, st =>
    if k ∈ doc then pruneDeleted doc ks st
    else
      let st1 : RegState := { st with simobjects := st.simobjects.erase k }
      if k ∈ st1.export_order then
        pruneDeleted doc ks { st1 with export_order := st1.export_order.erase k }
      else (st1, false)

/-- The table-rebuild loop (lines 1508-1531): Python's `for key in
data["export_order"]` iterates by index over the live list, so
`data["export_order"].remove(key)` (taken when `getObject(key)` finds
nothing) shifts the list under the iterator and the next element is
skipped. Keys whose object has a parent are collected in
`objectsWithParent`; all other branches only build table rows. `fuel` is
consumed once per iteration; the caller passes the list length, which always
suffices because the loop ends no later than after `length` iterations. -/
def tableLoop (doc : List String) (parented : String → Bool) :
    Nat → List String → Nat → List String → List String × List String
  | 0, eo, _, owp => (eo, owp)
  | fuel + 1, eo, i, owp =>
    if h : i < eo.length then
      let k := eo[i]
      if k ∈ doc then
        if parented k then tableLoop doc parented fuel eo (i + 1) (owp ++ [k])
        else tableLoop doc parented fuel eo (i + 1) owp
      else tableLoop doc parented fuel (eo.erase k) (i + 1) owp
    else (eo, owp)

/-- The reparent-prune loop (lines 1532-1539): for each collected key, pop
it from `simobjects` (with default, never raising — the `try` around it
guards a `ValueError` that `pop` cannot raise) and then `remove` it from
`export_order`, which does raise `ValueError` when absent, aborting the
handler. -/
def pruneParented : List String → RegState → RegState × Bool
  | [], st => (st, true)
  | k :: ks, st =>
    let st1 : RegState := { st with simobjects := st.simobjects.erase k }
    if k ∈ st1.export_order then
      pruneParented ks { st1 with export_order := st1.export_order.erase k }
    else (st1, false)

/-- The data effect of one `on_tree_item_selection_change()` run (lines
1392-1539) with an empty selection: deletion detection over a snapshot of
the dict keys, the rebuild of `export_order` from the dict keys when it is
empty (line 1501-1502), the live-list table loop, and the reparent prune.
The `Bool` is `false` when a `ValueError` escaped the handler (mutations
already made are kept, the rest of the handler is skipped). -/
def on_tree_item_selection_change (doc : List String) (parented : String → Bool)
    (st : RegState) : RegState × Bool :=
  let r1 := pruneDeleted doc st.simobjects st
  if r1.2 then
    let st1 := r1.1
    let eo1 := if st1.export_order.length = 0 then st1.simobjects else st1.export_order
    let r3 := tableLoop doc parented eo1.length eo1 0 []
    pruneParented r3.2 { st1 with export_order := r3.1 }
  else r1

/-- Helper for `on_cell_click` column 1: re-insert `curr` before each
occurrence of `prev` (the `for element in data["export_order"]` rebuild
loop, lines 1557-1560). -/
def insBefore (curr prev : String) : List String → List String
  | [] => []
  | e :: es => if e = prev then curr :: e :: insBefore curr prev es else e :: insBefore curr prev es

/-- Helper for `on_cell_click` column 2: re-insert `curr` after each
occurrence of `next` (the `for element in data["export_order"]` rebuild
loop, lines 1570-1573). -/
def insAfter (curr next : String) : List String → List String
  | [] => []
  | e :: es => if e = next then e :: curr :: insAfter curr next es else e :: insAfter curr next es

/-- The data effect of `on_cell_click(row, column)` (lines 1544-1581).
`data["simobjects"].keys()[row + 1]` raises `IndexError` before any mutation
when the dict is too small; column 1 removes `export_order[row+1]` and
re-inserts it before each occurrence of the old `export_order[row]`
(move up); column 2 reads `export_order[row+2]` first (`IndexError` before
any mutation on the last row), removes `export_order[row+1]` and re-inserts
it after each occurrence of the old `export_order[row+2]` (move down); any
other column does nothing. The handler ends by calling
`on_tree_item_selection_change()`. The `Bool` is `false` when an exception
escaped. -/
def on_cell_click (doc : List String) (parented : String → Bool) (st : RegState)
    (row col : Nat) : RegState × Bool :=
  if row + 1 < st.simobjects.length then
    if col = 1 then
      match st.export_order[row + 1]?, st.export_order[row]? with
      | some curr, some prev =>
        let eo1 := insBefore curr prev (st.export_order.erase curr)
        on_tree_item_selection_change doc parented { st with export_order := eo1 }
      | _, _ => (st, false)
    else if col = 2 then
      match st.export_order[row + 1]?, st.export_order[row + 2]? with
      | some curr, some next =>
        let eo1 := insAfter curr next (st.export_order.erase curr)
        on_tree_item_selection_change doc parented { st with export_order := eo1 }
      | _, _ => (st, false)
    else on_tree_item_selection_change doc parented st
  else (st, false)

/-! ## Claim theorems for the run monitor, finish handler, export driver and
importer -/

/-- C4 (counterexample): on the log `TimeMax=10.0` followed by the literal
line `Part_0005.00  ...  0.01234 - 00:01:02`, `on_fs_change` does not
compute the claimed 50 percent: the text before the first `.` of that line
is `Part_0005`, so `float("Part_0005.00")` raises `ValueError`; `timemax`
is set to 10 but the progress value is left untouched. -/
theorem on_fs_change_claim_log_raises :
    (on_fs_change (some ["TimeMax=10.0", "Part_0005.00  ...  0.01234 - 00:01:02"])
        ⟨-1, 0, 0⟩).1.progress ≠ 50 ∧
    (on_fs_change (some ["TimeMax=10.0", "Part_0005.00  ...  0.01234 - 00:01:02"])
        ⟨-1, 0, 0⟩).2 = some PyErr.valueErr ∧
    (on_fs_change (some ["TimeMax=10.0", "Part_0005.00  ...  0.01234 - 00:01:02"])
        ⟨-1, 0, 0⟩).1.timemax = 10 := by decide

/-- C4 (amended): the parser takes the last whitespace-separated token
before the first `.` of the line plus two following characters — on real
`Run.out` lines that token is the integer part of the current simulation
time, not the `Part_` index. For the log `TimeMax=10.0` then
`Part_0005  5.00 - 00:01:02` (current time 5.00), the handler computes
exactly `(5.00 * 100) / 10.0 = 50`. -/
theorem on_fs_change_time_token_fifty :
    on_fs_change (some ["TimeMax=10.0", "Part_0005  5.00 - 00:01:02"]) ⟨-1, 0, 0⟩
      = (⟨10, 50, 0⟩, none) := by decide

/-- C5 (counterexample): with no `TimeMax=` line seen (`timemax` still -1),
a parsable `Part_` last line does not raise: the division by the sentinel
-1 is carried out and yields a negative progress value. -/
theorem on_fs_change_unset_timemax_no_error :
    (on_fs_change (some ["Part_0005  5.00 - 00:01:02"]) ⟨-1, 0, 0⟩).2 = none ∧
    (on_fs_change (some ["Part_0005  5.00 - 00:01:02"]) ⟨-1, 0, 0⟩).1
      = ⟨-1, -500, 0⟩ := by decide

/-- C5 (amended): when `timemax` still holds its unset sentinel -1, the
handler silently computes progress with denominator -1: for current time
5.00 the progress value becomes `(5.00 * 100) / (-1) = -500`, and no error
of any kind is raised. -/
theorem on_fs_change_unset_timemax_divides :
    on_fs_change (some ["Part_0005  5.00 - 00:01:02"]) ⟨-1, 0, 0⟩ = (⟨-1, -500, 0⟩, none)
      ∧ pyDiv (pyMul 5 100) (-1) = -500 := by decide

/-- C7: when the `Run.out` read raises, the `except` clause only logs the
exception, after which the `for l in run_file_data` line raises `NameError`
on the never-assigned local — the handler does leave the whole monitor
state unchanged, but an unhandled error escapes instead of the claimed
silent no-op. -/
theorem on_fs_change_read_failure (st : MonState) :
    on_fs_change none st = (st, some PyErr.nameErr) := rfl

/-- C6: `on_dsph_sim_finished` shows the Error title and zeroed progress
exactly when the exit code is non-zero and the output contains "exception"
case-insensitively; in every other case — including non-zero exit without
that token — the title stays Complete with progress forced to 100; and
`data["simulation_done"]` is set exactly on exit code 0 (otherwise keeping
its prior value, which is `False` since the run started). -/
theorem on_dsph_sim_finished_outcomes (exitCode : Int) (output : String) (simDone0 : Bool) :
    (on_dsph_sim_finished exitCode output simDone0).title
      = (if exitCode ≠ 0 ∧ pyIn "exception" (pyLower output) = true
         then "DualSPHysics Simulation: Error" else "DualSPHysics Simulation: Complete") ∧
    (on_dsph_sim_finished exitCode output simDone0).progbar
      = (if exitCode ≠ 0 ∧ pyIn "exception" (pyLower output) = true then 0 else 100) ∧
    (on_dsph_sim_finished exitCode output simDone0).simulation_done
      = (decide (exitCode = 0) || simDone0) ∧
    (on_dsph_sim_finished exitCode output simDone0).watchRemoved = true := by
  by_cases h : exitCode = 0
  · subst h; simp [on_dsph_sim_finished]
  · by_cases h2 : pyIn "exception" (pyLower output) = true
    · simp [on_dsph_sim_finished, h, h2]
    · simp [on_dsph_sim_finished, h, h2]

theorem runStep_potential (s : RunWatch) (e : RunEvent) :
    runPotential (runStep s e) ≤ runPotential s := by
  cases e <;> simp only [runStep, runPotential] <;> split <;> simp_all

theorem runTrace_potential (evs : List RunEvent) (s : RunWatch) :
    runPotential (evs.foldl runStep s) ≤ runPotential s := by
  induction evs generalizing s with
  | nil => exact Nat.le_refl _
  | cons e evs ih =>
    exact Nat.le_trans (ih (runStep s e)) (runStep_potential s e)

/-- C8: over every event sequence of a run, `removePath` is called at most
once; in particular cancelling, receiving the induced finished signal
(whose handler removes the watch) and cancelling again releases the watch
exactly once, and the second cancel changes nothing — `kill()` on the dead
process is a no-op and produces no further finished signal. -/
theorem run_watch_released_once :
    (∀ evs : List RunEvent, (runTrace evs).removeCalls ≤ 1) ∧
    runTrace [RunEvent.cancel, RunEvent.finishSignal, RunEvent.cancel]
      = runTrace [RunEvent.cancel, RunEvent.finishSignal] ∧
    (runTrace [RunEvent.cancel, RunEvent.finishSignal]).removeCalls = 1 ∧
    (runTrace [RunEvent.cancel, RunEvent.finishSignal]).watchPresent = false ∧
    (runTrace [RunEvent.cancel, RunEvent.finishSignal]).procAlive = false := by
  refine ⟨fun evs => ?_, by decide, by decide, by decide, by decide⟩
  have h := runTrace_potential evs ⟨true, false, true, 0⟩
  simp only [runPotential, cond_true, cond_false] at h
  unfold runTrace
  omega

/-- C9: the extra arguments `on_export` appends after the two fixed
directory arguments come from `data["additional_parameters"]`, not from the
stored export-options string: with export options `-onlytype:-all` the
appended arguments are the split of the additional-parameters string, they
are identical under a different export-options string, and they change when
the additional-parameters string changes. -/
theorem on_export_args_from_additional_parameters :
    on_export_args "/p" "case" "-onlytype:-all" "-cellsize 2"
      = ["-dirin /p/case_Out/", "-savevtk /p/case_Out/PartAll", "-cellsize", "2"] ∧
    on_export_args "/p" "case" "-posmin:0dp" "-cellsize 2"
      = ["-dirin /p/case_Out/", "-savevtk /p/case_Out/PartAll", "-cellsize", "2"] ∧
    on_export_args "/p" "case" "-onlytype:-all" "-other 3"
      = ["-dirin /p/case_Out/", "-savevtk /p/case_Out/PartAll", "-other", "3"] := by
  decide

/-- C10: `filter_data` computes `fil['massfluid_auto']` from the
`massbound` element's `@auto` attribute — it is true exactly when that
attribute lower-cases to "true", and it is invariant under any change of
the `massfluid` element's own `@auto` attribute. -/
theorem filter_data_massfluid_auto_from_massbound (raw : MassAutoAttrs) :
    ((filter_data_mass raw).2 = true ↔ pyLower raw.massboundAuto = "true") ∧
    ∀ mf : String, (filter_data_mass { raw with massfluidAuto := mf }).2
      = (filter_data_mass raw).2 := by
  constructor
  · simp [filter_data_mass]
  · intro mf; rfl

/-! ## Registry-sync lemmas -/

theorem pruneDeleted_all_in_doc (doc : List String) :
    ∀ (ks : List String) (st : RegState), (∀ k, k ∈ ks → k ∈ doc) →
      pruneDeleted doc ks st = (st, true) := by
  intro ks
  induction ks with
  | nil => intro st _; rfl
  | cons k ks ih =>
    intro st h
    have hk : k ∈ doc := h k (List.mem_cons_self k ks)
    simp only [pruneDeleted, if_pos hk]
    exact ih st (fun j hj => h j (List.mem_cons_of_mem _ hj))

theorem pruneDeleted_spec (doc : List String) :
    ∀ (ks : List String) (st : RegState),
      st.simobjects.Nodup → st.export_order.Nodup →
      (∀ x, x ∈ st.simobjects ↔ x ∈ st.export_order) →
      ks.Nodup → (∀ k, k ∈ ks → k ∈ st.simobjects) →
      (pruneDeleted doc ks st).2 = true ∧
      (pruneDeleted doc ks st).1.simobjects.Nodup ∧
      (pruneDeleted doc ks st).1.export_order.Nodup ∧
      (∀ x, x ∈ (pruneDeleted doc ks st).1.simobjects ↔
        x ∈ (pruneDeleted doc ks st).1.export_order) ∧
      (∀ x, x ∈ (pruneDeleted doc ks st).1.simobjects ↔
        (x ∈ st.simobjects ∧ (x ∈ ks → x ∈ doc))) := by
  intro ks
  induction ks with
  | nil =>
    intro st h1 h2 h3 _ _
    exact ⟨rfl, h1, h2, h3, fun x => by simp [pruneDeleted]⟩
  | cons k ks ih =>
    intro st h1 h2 h3 hnd hsub
    by_cases hkdoc : k ∈ doc
    · have hstep : pruneDeleted doc (k :: ks) st = pruneDeleted doc ks st := by
        simp only [pruneDeleted, if_pos hkdoc]
      have hrec := ih st h1 h2 h3 hnd.of_cons (fun j hj => hsub j (List.mem_cons_of_mem _ hj))
      rw [hstep]
      refine ⟨hrec.1, hrec.2.1, hrec.2.2.1, hrec.2.2.2.1, fun x => ?_⟩
      rw [hrec.2.2.2.2 x]
      constructor
      · rintro ⟨hx, himp⟩
        refine ⟨hx, fun hmem => ?_⟩
        rcases List.mem_cons.1 hmem with h | h
        · subst h; exact hkdoc
        · exact himp h
      · rintro ⟨hx, himp⟩
        exact ⟨hx, fun hmem => himp (List.mem_cons_of_mem _ hmem)⟩
    · have hksim : k ∈ st.simobjects := hsub k (List.mem_cons_self _ _)
      have hkeo : k ∈ st.export_order := (h3 k).1 hksim
      have hknks : k ∉ ks := (List.nodup_cons.1 hnd).1
      have hstep : pruneDeleted doc (k :: ks) st
          = pruneDeleted doc ks ⟨st.simobjects.erase k, st.export_order.erase k⟩ := by
        simp only [pruneDeleted, if_neg hkdoc, if_pos hkeo]
      have h1e : (st.simobjects.erase k).Nodup := List.Nodup.erase k h1
      have h2e : (st.export_order.erase k).Nodup := List.Nodup.erase k h2
      have h3e : ∀ x, x ∈ st.simobjects.erase k ↔ x ∈ st.export_order.erase k := by
        intro x
        rw [List.Nodup.mem_erase_iff h1, List.Nodup.mem_erase_iff h2]
        exact and_congr_right (fun _ => h3 x)
      have hsube : ∀ j, j ∈ ks → j ∈ st.simobjects.erase k := by
        intro j hj
        have hne : j ≠ k := fun h => hknks (h ▸ hj)
        exact (List.Nodup.mem_erase_iff h1).2 ⟨hne, hsub j (List.mem_cons_of_mem _ hj)⟩
      have hrec := ih ⟨st.simobjects.erase k, st.export_order.erase k⟩
        h1e h2e h3e hnd.of_cons hsube
      rw [hstep]
      refine ⟨hrec.1, hrec.2.1, hrec.2.2.1, hrec.2.2.2.1, fun x => ?_⟩
      rw [hrec.2.2.2.2 x]
      constructor
      · rintro ⟨hx, himp⟩
        obtain ⟨hne, hxs⟩ := (List.Nodup.mem_erase_iff h1).1 hx
        refine ⟨hxs, fun hmem => ?_⟩
        rcases List.mem_cons.1 hmem with h | h
        · exact absurd h hne
        · exact himp h
      · rintro ⟨hx, himp⟩
        have hne : x ≠ k := by
          intro h
          subst h
          exact hkdoc (himp (List.mem_cons_self _ _))
        exact ⟨(List.Nodup.mem_erase_iff h1).2 ⟨hne, hx⟩,
          fun hmem => himp (List.mem_cons_of_mem _ hmem)⟩

theorem tableLoop_all_in_doc (doc : List String) (parented : String → Bool) :
    ∀ (fuel : Nat) (eo : List String) (i : Nat) (owp : List String),
      (∀ k, k ∈ eo → k ∈ doc) → eo.length ≤ i + fuel →
      tableLoop doc parented fuel eo i owp = (eo, owp ++ (eo.drop i).filter parented) := by
  intro fuel
  induction fuel with
  | zero =>
    intro eo i owp _ hle
    have hdrop : eo.drop i = [] := List.drop_eq_nil_of_le (by omega)
    simp [tableLoop, hdrop]
  | succ fuel ih =>
    intro eo i owp hdoc hle
    by_cases h : i < eo.length
    · have hk : eo[i] ∈ doc := hdoc _ (List.getElem_mem h)
      have hdrop : eo.drop i = eo[i] :: eo.drop (i + 1) := List.drop_eq_getElem_cons h
      by_cases hp : parented eo[i] = true
      · simp only [tableLoop, dif_pos h, if_pos hk, if_pos hp]
        rw [ih eo (i + 1) (owp ++ [eo[i]]) hdoc (by omega)]
        rw [hdrop, List.filter_cons_of_pos hp, List.append_assoc, List.singleton_append]
      · simp only [tableLoop, dif_pos h, if_pos hk, if_neg hp]
        rw [ih eo (i + 1) owp hdoc (by omega)]
        rw [hdrop, List.filter_cons_of_neg hp]
    · have hdrop : eo.drop i = [] := List.drop_eq_nil_of_le (by omega)
      simp [tableLoop, h, hdrop]

theorem pruneParented_spec :
    ∀ (owp : List String) (st : RegState),
      st.simobjects.Nodup → st.export_order.Nodup → owp.Nodup →
      (∀ k, k ∈ owp → k ∈ st.export_order) →
      (pruneParented owp st).2 = true ∧
      (∀ x, x ∈ (pruneParented owp st).1.simobjects ↔ (x ∈ st.simobjects ∧ x ∉ owp)) ∧
      (∀ x, x ∈ (pruneParented owp st).1.export_order ↔ (x ∈ st.export_order ∧ x ∉ owp)) := by
  intro owp
  induction owp with
  | nil =>
    intro st _ _ _ _
    exact ⟨rfl, fun x => by simp [pruneParented], fun x => by simp [pruneParented]⟩
  | cons k ks ih =>
    intro st h1 h2 hnd hsub
    have hkeo : k ∈ st.export_order := hsub k (List.mem_cons_self _ _)
    have hknks : k ∉ ks := (List.nodup_cons.1 hnd).1
    have hstep : pruneParented (k :: ks) st
        = pruneParented ks ⟨st.simobjects.erase k, st.export_order.erase k⟩ := by
      simp only [pruneParented, if_pos hkeo]
    have h1e : (st.simobjects.erase k).Nodup := List.Nodup.erase k h1
    have h2e : (st.export_order.erase k).Nodup := List.Nodup.erase k h2
    have hsube : ∀ j, j ∈ ks → j ∈ st.export_order.erase k := by
      intro j hj
      have hne : j ≠ k := fun h => hknks (h ▸ hj)
      exact (List.Nodup.mem_erase_iff h2).2 ⟨hne, hsub j (List.mem_cons_of_mem _ hj)⟩
    have hrec := ih ⟨st.simobjects.erase k, st.export_order.erase k⟩ h1e h2e hnd.of_cons hsube
    rw [hstep]
    refine ⟨hrec.1, fun x => ?_, fun x => ?_⟩
    · rw [hrec.2.1 x, List.Nodup.mem_erase_iff h1, List.mem_cons]
      constructor
      · rintro ⟨⟨hne, hx⟩, hnks⟩
        exact ⟨hx, fun h => h.elim hne hnks⟩
      · rintro ⟨hx, hn⟩
        exact ⟨⟨fun h => hn (Or.inl h), hx⟩, fun h => hn (Or.inr h)⟩
    · rw [hrec.2.2 x, List.Nodup.mem_erase_iff h2, List.mem_cons]
      constructor
      · rintro ⟨⟨hne, hx⟩, hnks⟩
        exact ⟨hx, fun h => h.elim hne hnks⟩
      · rintro ⟨hx, hn⟩
        exact ⟨⟨fun h => hn (Or.inl h), hx⟩, fun h => hn (Or.inr h)⟩

theorem reconcile_spec (doc : List String) (parented : String → Bool) (st : RegState)
    (h1 : st.simobjects.Nodup) (h2 : st.export_order.Nodup)
    (h3 : ∀ x, x ∈ st.simobjects ↔ x ∈ st.export_order) :
    (on_tree_item_selection_change doc parented st).2 = true ∧
    (∀ x, x ∈ (on_tree_item_selection_change doc parented st).1.simobjects ↔
      (x ∈ st.simobjects ∧ x ∈ doc ∧ parented x = false)) ∧
    (∀ x, x ∈ (on_tree_item_selection_change doc parented st).1.export_order ↔
      (x ∈ st.simobjects ∧ x ∈ doc ∧ parented x = false)) := by
  obtain ⟨hok, hnd1, hnd2, hsame, hmem⟩ :=
    pruneDeleted_spec doc st.simobjects st h1 h2 h3 h1 (fun k hk => hk)
  set st1 := (pruneDeleted doc st.simobjects st).1 with hst1
  have hmem1 : ∀ x, x ∈ st1.simobjects ↔ (x ∈ st.simobjects ∧ x ∈ doc) := by
    intro x
    rw [hmem x]
    exact ⟨fun ⟨ha, hb⟩ => ⟨ha, hb ha⟩, fun ⟨ha, hb⟩ => ⟨ha, fun _ => hb⟩⟩
  have hunfold : on_tree_item_selection_change doc parented st
      = (let eo1 := if st1.export_order.length = 0 then st1.simobjects else st1.export_order
         let r3 := tableLoop doc parented eo1.length eo1 0 []
         pruneParented r3.2 { st1 with export_order := r3.1 }) := by
    rw [on_tree_item_selection_change, hok]
    simp
  have heo1 :
      ∀ eo1, eo1 = (if st1.export_order.length = 0 then st1.simobjects else st1.export_order) →
      eo1.Nodup ∧ (∀ x, x ∈ eo1 ↔ x ∈ st1.simobjects) := by
    intro eo1 heq
    by_cases hlen : st1.export_order.length = 0
    · rw [heq, if_pos hlen]
      exact ⟨hnd1, fun x => Iff.rfl⟩
    · rw [heq, if_neg hlen]
      exact ⟨hnd2, fun x => (hsame x).symm⟩
  obtain ⟨hnde, hmeme⟩ := heo1 _ rfl
  set eo1 := (if st1.export_order.length = 0 then st1.simobjects else st1.export_order)
    with heo1def
  have hdocall : ∀ k, k ∈ eo1 → k ∈ doc := by
    intro k hk
    exact ((hmem1 k).1 ((hmeme k).1 hk)).2
  have htab := tableLoop_all_in_doc doc parented eo1.length eo1 0 [] hdocall (by omega)
  have hfsub : ∀ k, k ∈ eo1.filter parented → k ∈ eo1 := by
    intro k hk
    exact (List.mem_filter.1 hk).1
  have hfnd : (eo1.filter parented).Nodup := List.Nodup.filter parented hnde
  obtain ⟨pok, psim, peo⟩ :=
    pruneParented_spec (eo1.filter parented) ⟨st1.simobjects, eo1⟩ hnd1 hnde hfnd hfsub
  have hres : on_tree_item_selection_change doc parented st
      = pruneParented (eo1.filter parented) ⟨st1.simobjects, eo1⟩ := by
    rw [hunfold]
    simp only [← heo1def, htab, List.nil_append, List.drop_zero]
  rw [hres]
  refine ⟨pok, fun x => ?_, fun x => ?_⟩
  · rw [psim x]
    simp only [List.mem_filter, hmem1 x]
    constructor
    · rintro ⟨⟨hxs, hxd⟩, hnf⟩
      refine ⟨hxs, hxd, ?_⟩
      by_cases hpx : parented x = true
      · exact absurd ⟨(hmeme x).2 ((hmem1 x).2 ⟨hxs, hxd⟩), hpx⟩ hnf
      · exact Bool.not_eq_true _ ▸ hpx
    · rintro ⟨hxs, hxd, hpx⟩
      exact ⟨⟨hxs, hxd⟩, fun ⟨_, hc⟩ => by rw [hpx] at hc; exact Bool.false_ne_true hc⟩
  · rw [peo x]
    simp only [List.mem_filter, hmeme x, hmem1 x]
    constructor
    · rintro ⟨⟨hxs, hxd⟩, hnf⟩
      refine ⟨hxs, hxd, ?_⟩
      by_cases hpx : parented x = true
      · exact absurd ⟨⟨hxs, hxd⟩, hpx⟩ hnf
      · exact Bool.not_eq_true _ ▸ hpx
    · rintro ⟨hxs, hxd, hpx⟩
      exact ⟨⟨hxs, hxd⟩, fun ⟨_, hc⟩ => by rw [hpx] at hc; exact Bool.false_ne_true hc⟩

theorem reconcile_fixed (doc : List String) (parented : String → Bool) (st : RegState)
    (hsim : ∀ x, x ∈ st.simobjects → x ∈ doc)
    (heo : ∀ x, x ∈ st.export_order → x ∈ doc ∧ parented x = false)
    (hnil : st.export_order = [] → st.simobjects = []) :
    on_tree_item_selection_change doc parented st = (st, true) := by
  rw [on_tree_item_selection_change, pruneDeleted_all_in_doc doc st.simobjects st hsim]
  simp only [if_true]
  by_cases hlen : st.export_order.length = 0
  · have heo0 : st.export_order = [] := List.length_eq_zero.mp hlen
    have hsim0 : st.simobjects = [] := hnil heo0
    have hst : st = ⟨[], []⟩ := by
      cases st
      simp_all
    simp [hlen, hsim0, heo0, tableLoop, pruneParented, hst]
  · simp only [if_neg hlen]
    rw [tableLoop_all_in_doc doc parented st.export_order.length st.export_order 0 []
      (fun k hk => (heo k hk).1) (by omega)]
    have hfilter : st.export_order.filter parented = [] := by
      rw [List.filter_eq_nil_iff]
      intro a ha
      rw [(heo a ha).2]
      exact Bool.false_ne_true
    simp only [List.drop_zero, List.nil_append, hfilter, pruneParented]

/-- C1 (counterexample): from a state where identifiers live only in
ExportOrder, one reconcile run does not prune deleted identifiers from both
structures symmetrically: with document empty and `export_order = [a, b]`
(both deleted), the in-place `remove` during the `for key in
data["export_order"]` iteration skips `b`, which afterwards is present in
exactly one of the two structures. -/
theorem reconcile_one_sided_leftover :
    (on_tree_item_selection_change [] (fun _ => false) ⟨[], ["a", "b"]⟩).1
      = ⟨[], ["b"]⟩ ∧
    "b" ∈ (on_tree_item_selection_change [] (fun _ => false) ⟨[], ["a", "b"]⟩).1.export_order ∧
    "b" ∉ (on_tree_item_selection_change [] (fun _ => false) ⟨[], ["a", "b"]⟩).1.simobjects ∧
    "b" ∉ ([] : List String) := by decide

/-- C1 (amended): when the SimObject map and ExportOrder hold the same
identifiers (each without duplicates) — as in every state the registration
code itself builds — one reconcile run raises nothing, removes every
deleted or reparented identifier from both structures, and afterwards no
identifier is present in exactly one of the two. -/
theorem reconcile_prunes_both_together (doc : List String) (parented : String → Bool)
    (st : RegState)
    (h1 : st.simobjects.Nodup) (h2 : st.export_order.Nodup)
    (h3 : ∀ x, x ∈ st.simobjects ↔ x ∈ st.export_order) :
    (on_tree_item_selection_change doc parented st).2 = true ∧
    (∀ x, x ∈ (on_tree_item_selection_change doc parented st).1.simobjects ↔
      x ∈ (on_tree_item_selection_change doc parented st).1.export_order) ∧
    (∀ x, x ∈ st.simobjects → (x ∉ doc ∨ parented x = true) →
      x ∉ (on_tree_item_selection_change doc parented st).1.simobjects ∧
      x ∉ (on_tree_item_selection_change doc parented st).1.export_order) := by
  obtain ⟨hok, hsim, heo⟩ := reconcile_spec doc parented st h1 h2 h3
  refine ⟨hok, fun x => (hsim x).trans (heo x).symm, fun x hx hbad => ?_⟩
  constructor
  · intro hmem
    obtain ⟨_, hdoc, hpar⟩ := (hsim x).1 hmem
    rcases hbad with h | h
    · exact h hdoc
    · rw [hpar] at h; exact Bool.false_ne_true h
  · intro hmem
    obtain ⟨_, hdoc, hpar⟩ := (heo x).1 hmem
    rcases hbad with h | h
    · exact h hdoc
    · rw [hpar] at h; exact Bool.false_ne_true h

theorem reconcile_prunes_both_together_witness :
    (on_tree_item_selection_change ["Case_Limits", "a"] (fun n => n == "a")
      ⟨["Case_Limits", "b", "a"], ["Case_Limits", "b", "a"]⟩).2 = true ∧
    "b" ∉ (on_tree_item_selection_change ["Case_Limits", "a"] (fun n => n == "a")
      ⟨["Case_Limits", "b", "a"], ["Case_Limits", "b", "a"]⟩).1.simobjects ∧
    "a" ∉ (on_tree_item_selection_change ["Case_Limits", "a"] (fun n => n == "a")
      ⟨["Case_Limits", "b", "a"], ["Case_Limits", "b", "a"]⟩).1.export_order :=
  have h := reconcile_prunes_both_together ["Case_Limits", "a"] (fun n => n == "a")
    ⟨["Case_Limits", "b", "a"], ["Case_Limits", "b", "a"]⟩ (by decide) (by decide)
    (fun _ => Iff.rfl)
  ⟨h.1, (h.2.2 "b" (by decide) (Or.inl (by decide))).1,
    (h.2.2 "a" (by decide) (Or.inr (by decide))).2⟩

/-- C2 (counterexample): reconcile is not idempotent on arbitrary states:
with an empty document and `export_order = [a, b]` not backed by SimObject
entries, the first run removes only `a` (the live-list iteration skips `b`)
and the second run removes `b`, a further mutation. -/
theorem reconcile_not_idempotent :
    (on_tree_item_selection_change [] (fun _ => false)
        (on_tree_item_selection_change [] (fun _ => false) ⟨[], ["a", "b"]⟩).1).1
      ≠ (on_tree_item_selection_change [] (fun _ => false) ⟨[], ["a", "b"]⟩).1 := by
  decide

/-- C2 (amended): on every state in which the SimObject map and ExportOrder
hold the same identifiers (each without duplicates), a second reconcile run
with the same host document returns the state produced by the first run
unchanged (and raises nothing). -/
theorem reconcile_idempotent (doc : List String) (parented : String → Bool)
    (st : RegState)
    (h1 : st.simobjects.Nodup) (h2 : st.export_order.Nodup)
    (h3 : ∀ x, x ∈ st.simobjects ↔ x ∈ st.export_order) :
    on_tree_item_selection_change doc parented
        (on_tree_item_selection_change doc parented st).1
      = ((on_tree_item_selection_change doc parented st).1, true) := by
  obtain ⟨hok, hsim, heo⟩ := reconcile_spec doc parented st h1 h2 h3
  apply reconcile_fixed
  · intro x hx
    exact ((hsim x).1 hx).2.1
  · intro x hx
    obtain ⟨_, hd, hp⟩ := (heo x).1 hx
    exact ⟨hd, hp⟩
  · intro hnil
    rw [List.eq_nil_iff_forall_not_mem]
    intro x hx
    have hxe := (heo x).2 ((hsim x).1 hx)
    rw [hnil] at hxe
    exact List.not_mem_nil x hxe

theorem reconcile_idempotent_witness :
    on_tree_item_selection_change ["Case_Limits", "a", "p"] (fun n => n == "p")
        (on_tree_item_selection_change ["Case_Limits", "a", "p"] (fun n => n == "p")
          ⟨["Case_Limits", "b", "p"], ["Case_Limits", "b", "p"]⟩).1
      = ((on_tree_item_selection_change ["Case_Limits", "a", "p"] (fun n => n == "p")
          ⟨["Case_Limits", "b", "p"], ["Case_Limits", "b", "p"]⟩).1, true) :=
  reconcile_idempotent ["Case_Limits", "a", "p"] (fun n => n == "p")
    ⟨["Case_Limits", "b", "p"], ["Case_Limits", "b", "p"]⟩ (by decide) (by decide)
    (fun _ => Iff.rfl)

/-! ## Move up / move down lemmas -/

theorem getElem?_append_offset (A l : List String) (k : Nat) :
    (A ++ l)[A.length + k]? = l[k]? := by
  rw [List.getElem?_append_right (Nat.le_add_right _ _)]
  congr 1
  omega

theorem getElem?_append_at (A l : List String) (n k : Nat) (h : n = A.length + k) :
    (A ++ l)[n]? = l[k]? := by
  subst h
  exact getElem?_append_offset A l k

theorem insBefore_of_not_mem (c p : String) :
    ∀ l : List String, p ∉ l → insBefore c p l = l := by
  intro l
  induction l with
  | nil => intro; rfl
  | cons e es ih =>
    intro h
    rw [insBefore, if_neg (fun (he : e = p) => h (by rw [← he]; exact List.mem_cons_self e es)),
      ih (fun hm => h (List.mem_cons_of_mem e hm))]

theorem insBefore_append (c p : String) (A l : List String) (h : p ∉ A) :
    insBefore c p (A ++ l) = A ++ insBefore c p l := by
  induction A with
  | nil => rfl
  | cons e es ih =>
    rw [List.cons_append, insBefore,
      if_neg (fun (he : e = p) => h (by rw [← he]; exact List.mem_cons_self e es)),
      ih (fun hm => h (List.mem_cons_of_mem e hm)), List.cons_append]

theorem insBefore_swap (c p : String) (A B : List String) (hA : p ∉ A) (hB : p ∉ B) :
    insBefore c p (A ++ p :: B) = A ++ c :: p :: B := by
  rw [insBefore_append c p A _ hA, insBefore, if_pos rfl, insBefore_of_not_mem c p B hB]

theorem insAfter_of_not_mem (c n : String) :
    ∀ l : List String, n ∉ l → insAfter c n l = l := by
  intro l
  induction l with
  | nil => intro; rfl
  | cons e es ih =>
    intro h
    rw [insAfter, if_neg (fun (he : e = n) => h (by rw [← he]; exact List.mem_cons_self e es)),
      ih (fun hm => h (List.mem_cons_of_mem e hm))]

theorem insAfter_append (c n : String) (A l : List String) (h : n ∉ A) :
    insAfter c n (A ++ l) = A ++ insAfter c n l := by
  induction A with
  | nil => rfl
  | cons e es ih =>
    rw [List.cons_append, insAfter,
      if_neg (fun (he : e = n) => h (by rw [← he]; exact List.mem_cons_self e es)),
      ih (fun hm => h (List.mem_cons_of_mem e hm)), List.cons_append]

theorem insAfter_swap (c n : String) (A B : List String) (hA : n ∉ A) (hB : n ∉ B) :
    insAfter c n (A ++ n :: B) = A ++ n :: c :: B := by
  rw [insAfter_append c n A _ hA, insAfter, if_pos rfl, insAfter_of_not_mem c n B hB]

theorem erase_middle {A B : List String} {p c : String} (hcA : c ∉ A) (hpc : p ≠ c) :
    (A ++ p :: c :: B).erase c = A ++ p :: B := by
  rw [List.erase_append_right _ hcA, List.erase_cons_tail (by simp [hpc]),
    List.erase_cons_head]

theorem erase_head_middle {A B : List String} {c : String} (hcA : c ∉ A) :
    (A ++ c :: B).erase c = A ++ B := by
  rw [List.erase_append_right _ hcA, List.erase_cons_head]

theorem shape_facts {A B : List String} {p c : String}
    (h : (A ++ p :: c :: B).Nodup) :
    p ∉ A ∧ c ∉ A ∧ p ≠ c ∧ p ∉ B ∧ c ∉ B ∧ B.Nodup ∧ (∀ x, x ∈ B → x ∉ A) := by
  rw [List.nodup_append] at h
  obtain ⟨_, hmid, hdisj⟩ := h
  rw [List.nodup_cons] at hmid
  obtain ⟨hp, hmid2⟩ := hmid
  rw [List.nodup_cons] at hmid2
  obtain ⟨hc, hBnd⟩ := hmid2
  refine ⟨fun hm => hdisj hm (by simp), fun hm => hdisj hm (by simp),
    fun he => hp (he ▸ List.mem_cons_self c B),
    fun hm => hp (List.mem_cons_of_mem c hm), hc, hBnd,
    fun x hx hxA => hdisj hxA (by simp [hx])⟩

/-- C3 (counterexample): clicking "move up" coordinates for the first
exportable row (row 0, column 1) is not a no-op: the handler swaps the item
with the `Case_Limits` entry at position 0 of ExportOrder (the cell merely
has no "Move Up" label installed; `on_cell_click` itself does not guard
row 0). -/
theorem on_cell_click_first_row_up_not_noop :
    (on_cell_click ["Case_Limits", "x", "y"] (fun _ => false)
        ⟨["Case_Limits", "x", "y"], ["Case_Limits", "x", "y"]⟩ 0 1).1.export_order
      = ["x", "Case_Limits", "y"] ∧
    (on_cell_click ["Case_Limits", "x", "y"] (fun _ => false)
        ⟨["Case_Limits", "x", "y"], ["Case_Limits", "x", "y"]⟩ 0 1).1.export_order
      ≠ ["Case_Limits", "x", "y"] := by decide

/-- C3 (amended): on a clean registry state (SimObject keys and ExportOrder
hold the same identifiers, no duplicates, all objects live and unparented),
for an identifier at interior position `A.length + 1` of
`ExportOrder = A ++ prev :: curr :: B`: move-up then move-down on `curr`
restores the state exactly when `curr` is not the first exportable item
(`A ≠ []`), move-down then move-up on `curr` restores the state exactly when
`curr` is not last (`B ≠ []`), and move-down on the last item aborts with
`IndexError` before any mutation (a data no-op); move-up on the first
exportable item is not a no-op (see the counterexample). -/
theorem on_cell_click_move_inverse (doc : List String) (parented : String → Bool)
    (st : RegState) (A B : List String) (prev curr : String)
    (h1 : st.simobjects.Nodup) (h2 : st.export_order.Nodup)
    (h3 : ∀ x, x ∈ st.simobjects ↔ x ∈ st.export_order)
    (hdocall : ∀ x, x ∈ st.export_order → x ∈ doc ∧ parented x = false)
    (hshape : st.export_order = A ++ prev :: curr :: B) :
    (A ≠ [] →
      on_cell_click doc parented (on_cell_click doc parented st A.length 1).1
        (A.length - 1) 2 = (st, true)) ∧
    (∀ b B', B = b :: B' →
      on_cell_click doc parented (on_cell_click doc parented st A.length 2).1
        (A.length + 1) 1 = (st, true)) ∧
    (B = [] → on_cell_click doc parented st A.length 2 = (st, false)) := by
  have h2' : (A ++ prev :: curr :: B).Nodup := hshape ▸ h2
  obtain ⟨hpA, hcA, hpc, hpB, hcB, hBnd, hBA⟩ := shape_facts h2'
  have hlen : st.simobjects.length = A.length + B.length + 2 := by
    have hperm : st.simobjects.Perm st.export_order :=
      (List.perm_ext_iff_of_nodup h1 h2).2 h3
    rw [hperm.length_eq, hshape]
    simp only [List.length_append, List.length_cons]
    omega
  have hfix : ∀ eo' : List String, (∀ x, x ∈ eo' ↔ x ∈ st.export_order) → eo' ≠ [] →
      on_tree_item_selection_change doc parented { st with export_order := eo' }
        = ({ st with export_order := eo' }, true) := by
    intro eo' hmem hne
    apply reconcile_fixed
    · intro x hx
      exact (hdocall x ((h3 x).1 hx)).1
    · intro x hx
      exact hdocall x ((hmem x).1 hx)
    · intro h
      exact absurd h hne
  have hg1 : A.length + 1 < st.simobjects.length := by omega
  have hget1 : st.export_order[A.length + 1]? = some curr := by
    rw [hshape, getElem?_append_at A _ _ 1 rfl]
    simp
  refine ⟨?_, ?_, ?_⟩
  · -- move up then move down
    intro hA
    have hApos : 0 < A.length := List.length_pos.2 hA
    have hget2 : st.export_order[A.length]? = some prev := by
      rw [hshape, getElem?_append_at A _ _ 0 (by omega)]
      simp
    have herase1 : (A ++ prev :: curr :: B).erase curr = A ++ prev :: B :=
      erase_middle hcA hpc
    have hins1 : insBefore curr prev (A ++ prev :: B) = A ++ curr :: prev :: B :=
      insBefore_swap curr prev A B hpA hpB
    have hmemu : ∀ x, x ∈ A ++ curr :: prev :: B ↔ x ∈ st.export_order := by
      intro x
      rw [hshape]
      simp only [List.mem_append, List.mem_cons]
      tauto
    have hstep1 : on_cell_click doc parented st A.length 1
        = ({ st with export_order := A ++ curr :: prev :: B }, true) := by
      unfold on_cell_click
      rw [if_pos hg1, if_pos rfl, hget1, hget2]
      show on_tree_item_selection_change doc parented
        { st with export_order := insBefore curr prev (st.export_order.erase curr) } = _
      rw [hshape, herase1, hins1]
      exact hfix _ hmemu (by simp)
    rw [hstep1]
    have hg2 : (A.length - 1) + 1 < st.simobjects.length := by omega
    have hget3 : (A ++ curr :: prev :: B)[A.length - 1 + 1]? = some curr := by
      rw [getElem?_append_at A _ _ 0 (by omega)]
      simp
    have hget4 : (A ++ curr :: prev :: B)[A.length - 1 + 2]? = some prev := by
      rw [getElem?_append_at A _ _ 1 (by omega)]
      simp
    have herase2 : (A ++ curr :: prev :: B).erase curr = A ++ prev :: B :=
      erase_head_middle hcA
    have hins2 : insAfter curr prev (A ++ prev :: B) = A ++ prev :: curr :: B :=
      insAfter_swap curr prev A B hpA hpB
    show on_cell_click doc parented { st with export_order := A ++ curr :: prev :: B }
      (A.length - 1) 2 = (st, true)
    unfold on_cell_click
    rw [if_pos hg2, if_neg (by decide), if_pos rfl]
    show (match (A ++ curr :: prev :: B)[A.length - 1 + 1]?,
        (A ++ curr :: prev :: B)[A.length - 1 + 2]? with
      | some c, some n =>
        on_tree_item_selection_change doc parented
          { st with export_order := insAfter c n ((A ++ curr :: prev :: B).erase c) }
      | _, _ => (({ st with export_order := A ++ curr :: prev :: B } : RegState), false)) = _
    rw [hget3, hget4]
    show on_tree_item_selection_change doc parented
      { st with export_order := insAfter curr prev ((A ++ curr :: prev :: B).erase curr) } = _
    rw [herase2, hins2, ← hshape]
    show on_tree_item_selection_change doc parented st = (st, true)
    have := hfix st.export_order (fun x => Iff.rfl) (by rw [hshape]; simp)
    exact this
  · -- move down then move up
    intro b B' hb
    subst hb
    have hpb : prev ≠ b := fun h => hpB (h ▸ List.mem_cons_self b B')
    have hpB' : prev ∉ B' := fun h => hpB (List.mem_cons_of_mem b h)
    have hcb : curr ≠ b := fun h => hcB (h ▸ List.mem_cons_self b B')
    have hcB' : curr ∉ B' := fun h => hcB (List.mem_cons_of_mem b h)
    have hbB' : b ∉ B' := (List.nodup_cons.1 hBnd).1
    have hbA : b ∉ A := hBA b (List.mem_cons_self b B')
    have hbAp : b ∉ A ++ [prev] := by
      intro hm
      rcases List.mem_append.1 hm with h | h
      · exact hbA h
      · rw [List.mem_singleton] at h
        exact hpb h.symm
    have hcAp : curr ∉ A ++ [prev] := by
      intro hm
      rcases List.mem_append.1 hm with h | h
      · exact hcA h
      · rw [List.mem_singleton] at h
        exact hpc h.symm
    have hget5 : st.export_order[A.length + 2]? = some b := by
      rw [hshape, getElem?_append_at A _ _ 2 rfl]
      simp
    have herase3 : (A ++ prev :: curr :: b :: B').erase curr = A ++ prev :: b :: B' :=
      erase_middle hcA hpc
    have hins3 : insAfter curr b (A ++ prev :: b :: B') = A ++ prev :: b :: curr :: B' := by
      rw [List.append_cons A prev (b :: B'), insAfter_swap curr b (A ++ [prev]) B' hbAp hbB',
        ← List.append_cons]
    have hmemd : ∀ x, x ∈ A ++ prev :: b :: curr :: B' ↔ x ∈ st.export_order := by
      intro x
      rw [hshape]
      simp only [List.mem_append, List.mem_cons]
      tauto
    have hstep1 : on_cell_click doc parented st A.length 2
        = ({ st with export_order := A ++ prev :: b :: curr :: B' }, true) := by
      unfold on_cell_click
      rw [if_pos hg1, if_neg (by decide), if_pos rfl, hget1, hget5]
      show on_tree_item_selection_change doc parented
        { st with export_order := insAfter curr b (st.export_order.erase curr) } = _
      rw [hshape, herase3, hins3]
      exact hfix _ hmemd (by simp)
    rw [hstep1]
    have hg3 : (A.length + 1) + 1 < st.simobjects.length := by
      simp only [List.length_cons] at hlen
      omega
    have hget6 : (A ++ prev :: b :: curr :: B')[A.length + 1 + 1]? = some curr := by
      rw [List.append_cons A prev (b :: curr :: B'),
        getElem?_append_at (A ++ [prev]) _ _ 1 (by simp)]
      simp
    have hget7 : (A ++ prev :: b :: curr :: B')[A.length + 1]? = some b := by
      rw [List.append_cons A prev (b :: curr :: B'),
        getElem?_append_at (A ++ [prev]) _ _ 0 (by simp)]
      simp
    have herase4 : (A ++ prev :: b :: curr :: B').erase curr = A ++ prev :: b :: B' := by
      rw [List.append_cons A prev (b :: curr :: B'),
        erase_middle hcAp (fun h => hcb h.symm), ← List.append_cons]
    have hins4 : insBefore curr b (A ++ prev :: b :: B') = A ++ prev :: curr :: b :: B' := by
      rw [List.append_cons A prev (b :: B'),
        insBefore_swap curr b (A ++ [prev]) B' hbAp hbB', ← List.append_cons]
    show on_cell_click doc parented
      { st with export_order := A ++ prev :: b :: curr :: B' } (A.length + 1) 1 = (st, true)
    unfold on_cell_click
    rw [if_pos hg3, if_pos rfl]
    show (match (A ++ prev :: b :: curr :: B')[A.length + 1 + 1]?,
        (A ++ prev :: b :: curr :: B')[A.length + 1]? with
      | some c, some p =>
        on_tree_item_selection_change doc parented
          { st with export_order := insBefore c p ((A ++ prev :: b :: curr :: B').erase c) }
      | _, _ => (({ st with export_order := A ++ prev :: b :: curr :: B' } : RegState), false)) = _
    rw [hget6, hget7]
    show on_tree_item_selection_change doc parented
      { st with export_order := insBefore curr b ((A ++ prev :: b :: curr :: B').erase curr) } = _
    rw [herase4, hins4, ← hshape]
    show on_tree_item_selection_change doc parented st = (st, true)
    exact hfix st.export_order (fun x => Iff.rfl) (by rw [hshape]; simp)
  · -- move down on the last row: IndexError before mutation
    intro hB
    subst hB
    have hget8 : st.export_order[A.length + 2]? = none := by
      rw [hshape, getElem?_append_at A _ _ 2 rfl]
      simp
    unfold on_cell_click
    rw [if_pos hg1, if_neg (by decide), if_pos rfl, hget1, hget8]

theorem on_cell_click_move_inverse_witness :
    on_cell_click ["Case_Limits", "x", "y", "z"] (fun _ => false)
        (on_cell_click ["Case_Limits", "x", "y", "z"] (fun _ => false)
          ⟨["Case_Limits", "x", "y", "z"], ["Case_Limits", "x", "y", "z"]⟩ 1 1).1 0 2
      = (⟨["Case_Limits", "x", "y", "z"], ["Case_Limits", "x", "y", "z"]⟩, true) ∧
    on_cell_click ["Case_Limits", "x", "y", "z"] (fun _ => false)
        (on_cell_click ["Case_Limits", "x", "y", "z"] (fun _ => false)
          ⟨["Case_Limits", "x", "y", "z"], ["Case_Limits", "x", "y", "z"]⟩ 1 2).1 2 1
      = (⟨["Case_Limits", "x", "y", "z"], ["Case_Limits", "x", "y", "z"]⟩, true) :=
  have h := on_cell_click_move_inverse ["Case_Limits", "x", "y", "z"] (fun _ => false)
    ⟨["Case_Limits", "x", "y", "z"], ["Case_Limits", "x", "y", "z"]⟩ ["Case_Limits"] ["z"]
    "x" "y" (by decide) (by decide) (fun _ => Iff.rfl) (by decide) rfl
  ⟨h.1 (by decide), h.2.1 "z" [] rfl⟩

end DSPH
